import Mathlib

/-!
Verification of the Mandelbrot viewer (`src/mandelbrot_in_rust/orig.rs`).

The numeric code of the program uses `f64`/`f32`; the embedding below uses
exact rational arithmetic (`ℚ`).  Every claim settled here concerns either
range/sign facts that are robust under rounding, or computations
(halving/doubling, `400/800 - 0.5`, the first iterations at small integer
points) that IEEE-754 evaluates exactly, so the rational model agrees with
the source on the inputs the claims talk about.
-/

namespace MandelbrotViz

/-- Image width in pixels (`WIDTH` in the source). -/
def WIDTH : ℕ := 800

/-- Image height in pixels (`HEIGHT` in the source). -/
def HEIGHT : ℕ := 600

/-- Iteration cap (`MAX_ITER` in the source). -/
def MAX_ITER : ℕ := 256

/-- The view state: `struct View { center_x, center_y, zoom }`. -/
structure View where
  center_x : ℚ
  center_y : ℚ
  zoom : ℚ
deriving DecidableEq

/-- `View::new()`: defaults `(-0.5, 0.0, 1.0)`. -/
def View.new : View := { center_x := -0.5, center_y := 0, zoom := 1 }

/-- `View::screen_to_complex`, translated line by line from the source. -/
def View.screen_to_complex (v : View) (x y : ℚ) : ℚ × ℚ :=
  let aspect : ℚ := (WIDTH : ℚ) / (HEIGHT : ℚ)
  let range : ℚ := 3.5 / v.zoom
  let real := v.center_x + (x / (WIDTH : ℚ) - 0.5) * range * aspect
  let imag := v.center_y + (y / (HEIGHT : ℚ) - 0.5) * range
  (real, imag)

/-- Modelled from the spec (section 4.1): the View Transform formula
`aspect = W/H`, `range = 3.5/zoom`, `real = center_real + (x/W - 0.5) *
range * aspect`, `imag = center_imag + (y/H - 0.5) * range`.  Used only to
compare against `View.screen_to_complex` from the source. -/
def screen_to_complex_spec (v : View) (x y : ℚ) : ℚ × ℚ :=
  (v.center_x + (x / (WIDTH : ℚ) - 0.5) * (3.5 / v.zoom) * ((WIDTH : ℚ) / (HEIGHT : ℚ)),
   v.center_y + (y / (HEIGHT : ℚ) - 0.5) * (3.5 / v.zoom))

/-- The `while` loop of `fn mandelbrot`, with fuel `max_iter - iter`:
the loop guard `iter < max_iter` holds exactly when fuel remains. -/
def mandelbrotGo (c_real c_imag : ℚ) : ℚ → ℚ → ℕ → ℕ → ℕ
  | _, _, iter, 0 => iter
  | z_real, z_imag, iter, fuel + 1 =>
    if z_real * z_real + z_imag * z_imag ≤ 4 then
      mandelbrotGo c_real c_imag
        (z_real * z_real - z_imag * z_imag + c_real)
        (2 * z_real * z_imag + c_imag) (iter + 1) fuel
    else iter

/-- `fn mandelbrot(c_real, c_imag, max_iter)`: escape-time iteration
starting from `z = 0`, `iter = 0`. -/
def mandelbrot (c_real c_imag : ℚ) (max_iter : ℕ) : ℕ :=
  mandelbrotGo c_real c_imag 0 0 0 max_iter

/-- Modelled from the spec (section 4.2): the reference loop
`z = 0; n = 0; while |z|^2 <= 4.0 and n < max_iter: z = z^2 + c; n += 1;
return n`, with fuel `max_iter - n` supplying the guard `n < max_iter`.
Used only to compare against `mandelbrot` from the source. -/
def escape_time_go (c : ℚ × ℚ) : ℚ × ℚ → ℕ → ℕ → ℕ
  | _, n, 0 => n
  | z, n, fuel + 1 =>
    if z.1 * z.1 + z.2 * z.2 ≤ 4 then
      escape_time_go c (z.1 * z.1 - z.2 * z.2 + c.1, 2 * z.1 * z.2 + c.2) (n + 1) fuel
    else n

/-- Modelled from the spec (section 4.2): the reference escape-time count. -/
def escape_time (c : ℚ × ℚ) (max_iter : ℕ) : ℕ :=
  escape_time_go c (0, 0) 0 max_iter

/-- Truncation toward zero, the semantics of Rust float `%` division and of
the Rust `as i32` cast on a non-negative float. -/
def rtrunc (q : ℚ) : ℤ := if 0 ≤ q then ⌊q⌋ else ⌈q⌉

/-- Rust's `%` on floats: `a - b * trunc(a / b)` (remainder with the sign
of the dividend). -/
def fmod (a b : ℚ) : ℚ := a - b * (rtrunc (a / b) : ℚ)

/-- An RGBA color, channels in `[0,1]` (macroquad's `Color`). -/
structure Color where
  r : ℚ
  g : ℚ
  b : ℚ
  a : ℚ
deriving DecidableEq

/-- macroquad's `BLACK`: opaque black. -/
def BLACK : Color := ⟨0, 0, 0, 1⟩

/-- The binding `t = iter as f32 / max_iter as f32` in `color_from_iter`. -/
def hsv_t (iter max_iter : ℕ) : ℚ := (iter : ℚ) / (max_iter : ℚ)

/-- The binding `hue = t * 360.0` in `color_from_iter`. -/
def hsv_hue (iter max_iter : ℕ) : ℚ := hsv_t iter max_iter * 360

/-- The match scrutinee `(hue / 60.0) as i32` in `color_from_iter`. -/
def hsv_sector (iter max_iter : ℕ) : ℤ := rtrunc (hsv_hue iter max_iter / 60)

/-- The binding `s = 0.8` in `color_from_iter`. -/
def hsv_s : ℚ := 0.8

/-- The binding `v = if t < 0.5 { t * 2.0 } else { 1.0 }` in
`color_from_iter`. -/
def hsv_v (iter max_iter : ℕ) : ℚ :=
  if hsv_t iter max_iter < 0.5 then hsv_t iter max_iter * 2 else 1

/-- The binding `c = v * s` (chroma) in `color_from_iter`. -/
def hsv_c (iter max_iter : ℕ) : ℚ := hsv_v iter max_iter * hsv_s

/-- The binding `x = c * (1.0 - ((hue / 60.0) % 2.0 - 1.0).abs())` in
`color_from_iter`. -/
def hsv_x (iter max_iter : ℕ) : ℚ :=
  hsv_c iter max_iter * (1 - |fmod (hsv_hue iter max_iter / 60) 2 - 1|)

/-- The binding `m = v - c` in `color_from_iter`. -/
def hsv_m (iter max_iter : ℕ) : ℚ := hsv_v iter max_iter - hsv_c iter max_iter

/-- The `match (hue / 60.0) as i32` expression of `color_from_iter`,
selecting the `(r, g, b)` triple for a hue sector. -/
def sector_rgb (k : ℤ) (c x : ℚ) : ℚ × ℚ × ℚ :=
  match k with
  | 0 => (c, x, 0)
  | 1 => (x, c, 0)
  | 2 => (0, c, x)
  | 3 => (0, x, c)
  | 4 => (x, 0, c)
  | _ => (c, 0, x)

/-- `fn color_from_iter(iter, max_iter)`, translated line by line from the
source; each `let` binding of the source is one of the named definitions
above. -/
def color_from_iter (iter max_iter : ℕ) : Color :=
  if iter = max_iter then BLACK
  else
    let rgb := sector_rgb (hsv_sector iter max_iter)
      (hsv_c iter max_iter) (hsv_x iter max_iter)
    ⟨rgb.1 + hsv_m iter max_iter, rgb.2.1 + hsv_m iter max_iter,
     rgb.2.2 + hsv_m iter max_iter, 1⟩

/-- The zoom/pan actions the event loop in `main` performs on the view:
left click (zoom in), right click (zoom out), and the `R` key (reset). -/
inductive Action where
  | zoomIn (mx my : ℚ)
  | zoomOut (mx my : ℚ)
  | reset

/-- One step of the event loop in `main`: each click recenters on the
clicked point via `screen_to_complex` and doubles or halves `zoom`; `R`
restores `View::new()`. -/
def step (v : View) : Action → View
  | .zoomIn mx my =>
    let p := v.screen_to_complex mx my
    { center_x := p.1, center_y := p.2, zoom := v.zoom * 2 }
  | .zoomOut mx my =>
    let p := v.screen_to_complex mx my
    { center_x := p.1, center_y := p.2, zoom := v.zoom / 2 }
  | .reset => View.new

/-- Running a sequence of event-loop actions from a view state. -/
def run (v : View) (actions : List Action) : View :=
  List.foldl step v actions

end MandelbrotViz

namespace MandelbrotViz

/-! ## Supporting lemmas -/

/-- The source loop and the spec's reference loop compute the same count
from any intermediate state. -/
lemma mandelbrotGo_eq_escape (cr ci : ℚ) :
    ∀ (fuel : ℕ) (zr zi : ℚ) (n : ℕ),
      mandelbrotGo cr ci zr zi n fuel = escape_time_go (cr, ci) (zr, zi) n fuel := by
  intro fuel
  induction fuel with
  | zero => intro zr zi n; rfl
  | succ fuel ih =>
    intro zr zi n
    simp only [mandelbrotGo, escape_time_go]
    split <;> [exact ih _ _ _; rfl]

/-- The loop counter grows by at most the remaining fuel. -/
lemma mandelbrotGo_le (cr ci : ℚ) :
    ∀ (fuel : ℕ) (zr zi : ℚ) (n : ℕ), mandelbrotGo cr ci zr zi n fuel ≤ n + fuel := by
  intro fuel
  induction fuel with
  | zero => intro _ _ n; simp [mandelbrotGo]
  | succ fuel ih =>
    intro zr zi n
    simp only [mandelbrotGo]
    split
    · exact le_trans (ih _ _ _) (by omega)
    · omega

/-- At `c = 0` the iterate stays at `z = 0`, so the loop consumes all fuel. -/
lemma mandelbrotGo_zero_c : ∀ (fuel n : ℕ), mandelbrotGo 0 0 0 0 n fuel = n + fuel := by
  intro fuel
  induction fuel with
  | zero => intro n; rfl
  | succ fuel ih =>
    intro n
    simp only [mandelbrotGo]
    norm_num
    rw [ih]
    omega

/-- One loop iteration when the escape test passes. -/
lemma go_step (cr ci zr zi : ℚ) (n fuel : ℕ) (h : zr * zr + zi * zi ≤ 4) :
    mandelbrotGo cr ci zr zi n (fuel + 1) =
      mandelbrotGo cr ci (zr * zr - zi * zi + cr) (2 * zr * zi + ci) (n + 1) fuel := by
  simp only [mandelbrotGo, if_pos h]

/-- Loop exit when the escape test fails. -/
lemma go_stop (cr ci zr zi : ℚ) (n fuel : ℕ) (h : ¬ zr * zr + zi * zi ≤ 4) :
    mandelbrotGo cr ci zr zi n (fuel + 1) = n := by
  simp only [mandelbrotGo, if_neg h]

/-- Value of `mandelbrot` at the point `(2.0, 0.0)`: the loop runs twice.
After one iteration `z = (2, 0)` has `|z|^2 = 4`, which still passes the
non-strict test `<= 4.0`; only after the second iteration (`z = (6, 0)`)
does the loop exit. -/
lemma mandelbrot_two : mandelbrot 2 0 256 = 2 := by
  show mandelbrotGo 2 0 0 0 0 256 = 2
  rw [show (256 : ℕ) = 255 + 1 from rfl, go_step 2 0 0 0 0 255 (by norm_num)]
  norm_num
  rw [show (255 : ℕ) = 254 + 1 from rfl, go_step 2 0 2 0 1 254 (by norm_num)]
  norm_num
  rw [show (254 : ℕ) = 253 + 1 from rfl, go_stop 2 0 6 0 2 253 (by norm_num)]

/-- Every event-loop action keeps `zoom` strictly positive. -/
lemma step_zoom_pos (v : View) (a : Action) (h : 0 < v.zoom) : 0 < (step v a).zoom := by
  cases a with
  | zoomIn mx my => simpa [step] using by positivity
  | zoomOut mx my => simpa [step] using by positivity
  | reset => norm_num [step, View.new]

/-- Positivity of `zoom` is preserved along any action sequence. -/
lemma run_zoom_pos (actions : List Action) :
    ∀ v : View, 0 < v.zoom → 0 < (run v actions).zoom := by
  induction actions with
  | nil => intro v h; exact h
  | cons a as ih => intro v h; exact ih (step v a) (step_zoom_pos v a h)

/-- Rust float `%` by 2 of a non-negative value lies in `[0, 2)`. -/
lemma fmod_two (a : ℚ) (ha : 0 ≤ a) : 0 ≤ fmod a 2 ∧ fmod a 2 < 2 := by
  have h2 : (0 : ℚ) ≤ a / 2 := by positivity
  have hf : fmod a 2 = 2 * Int.fract (a / 2) := by
    simp only [fmod, rtrunc, if_pos h2, Int.fract]
    ring
  have h3 := Int.fract_nonneg (a / 2)
  have h4 := Int.fract_lt_one (a / 2)
  constructor <;> [linarith [hf ▸ mul_nonneg (by norm_num : (0:ℚ) ≤ 2) h3]; linarith [hf]]

/-- Each component of the hue-sector triple lies in `[0, c]` whenever
`0 ≤ x ≤ c`, for every sector index. -/
lemma sector_rgb_bounds (k : ℤ) (c x : ℚ) (hx0 : 0 ≤ x) (hxc : x ≤ c) (hc0 : 0 ≤ c) :
    (0 ≤ (sector_rgb k c x).1 ∧ (sector_rgb k c x).1 ≤ c) ∧
    (0 ≤ (sector_rgb k c x).2.1 ∧ (sector_rgb k c x).2.1 ≤ c) ∧
    (0 ≤ (sector_rgb k c x).2.2 ∧ (sector_rgb k c x).2.2 ≤ c) := by
  unfold sector_rgb
  split <;> refine ⟨⟨?_, ?_⟩, ⟨?_, ?_⟩, ⟨?_, ?_⟩⟩ <;> simp <;> linarith

end MandelbrotViz

namespace MandelbrotViz

/-! ## Claim theorems -/

/-- C1: for every pixel coordinate `(x, y)` with `x ∈ [0, W)` and
`y ∈ [0, H)` and every view state with `zoom > 0`, `screen_to_complex`
returns exactly the pair given by the spec's formula (`aspect = W/H`,
`range = 3.5/zoom`, affine offset from the center); the function is pure,
so the embedding has no side effects to account for. -/
theorem screen_to_complex_matches_spec (v : View) (x y : ℚ)
    (hx0 : 0 ≤ x) (hx : x < 800) (hy0 : 0 ≤ y) (hy : y < 600)
    (hz : 0 < v.zoom) :
    v.screen_to_complex x y = screen_to_complex_spec v x y := rfl

/-- C1 witness: the theorem instantiated at the view `(1, 2, zoom 2)` and
pixel `(100, 50)`. -/
theorem screen_to_complex_matches_spec_witness :
    (0 : ℚ) ≤ 100 ∧ (100 : ℚ) < 800 ∧ (0 : ℚ) ≤ 50 ∧ (50 : ℚ) < 600 ∧
    (0 : ℚ) < (View.mk 1 2 2).zoom ∧
    (View.mk 1 2 2).screen_to_complex 100 50 =
      screen_to_complex_spec (View.mk 1 2 2) 100 50 :=
  ⟨by norm_num, by norm_num, by norm_num, by norm_num, by norm_num,
    screen_to_complex_matches_spec (View.mk 1 2 2) 100 50 (by norm_num)
      (by norm_num) (by norm_num) (by norm_num) (by norm_num)⟩

/-- C2: for every complex point and every `max_iter`, `mandelbrot` returns
a count `n` with `0 ≤ n ≤ max_iter` (the lower bound is inherent in the
return type `ℕ`), equal to the count of the spec's reference loop
`escape_time`. -/
theorem mandelbrot_bounded_and_matches_spec (c_real c_imag : ℚ) (max_iter : ℕ) :
    mandelbrot c_real c_imag max_iter ≤ max_iter ∧
    mandelbrot c_real c_imag max_iter = escape_time (c_real, c_imag) max_iter := by
  constructor
  · have := mandelbrotGo_le c_real c_imag max_iter 0 0 0
    simpa [mandelbrot] using this
  · exact mandelbrotGo_eq_escape c_real c_imag max_iter 0 0 0

/-- C3: starting from the seed view (`zoom = 1.0`), every state reachable
by any sequence of zoom-in (`zoom *= 2.0`), zoom-out (`zoom /= 2.0`) and
reset actions has `zoom` strictly greater than `0`. -/
theorem zoom_always_positive (actions : List Action) :
    0 < (run View.new actions).zoom :=
  run_zoom_pos actions View.new (by norm_num [View.new])

/-- C4 counterexample: `mandelbrot(2.0, 0.0, 256)` does not return `0` and
does not escape on the first iteration — the count exceeds `1`, because
`|c|^2 = 4.0` passes (rather than trips) the non-strict exit test
`|z|^2 <= 4.0`. -/
theorem mandelbrot_two_not_first_iteration : ¬ mandelbrot 2 0 256 ≤ 1 := by
  rw [mandelbrot_two]
  omega

/-- C4 (amended): `mandelbrot(2.0, 0.0, 256)` returns the very small count
`2`: since the escape test `|z|^2 <= 4.0` is non-strict, `|c|^2 = 4.0`
does not trigger exit on iteration 1, and the point escapes on the second
iteration. -/
theorem mandelbrot_two_escapes_second_iteration : mandelbrot 2 0 256 = 2 :=
  mandelbrot_two

/-- C5: for every `n ∈ [0, 256]` each of the red, green and blue channel
values of `color_from_iter n 256` lies in `[0, 1]`, and the alpha channel
is fully opaque (`1`). -/
theorem color_channels_in_range (n : ℕ) (h : n ≤ 256) :
    (0 ≤ (color_from_iter n 256).r ∧ (color_from_iter n 256).r ≤ 1) ∧
    (0 ≤ (color_from_iter n 256).g ∧ (color_from_iter n 256).g ≤ 1) ∧
    (0 ≤ (color_from_iter n 256).b ∧ (color_from_iter n 256).b ≤ 1) ∧
    (color_from_iter n 256).a = 1 := by
  by_cases hn : n = 256
  · subst hn; norm_num [color_from_iter, BLACK]
  · have ht0 : (0 : ℚ) ≤ hsv_t n 256 := by unfold hsv_t; positivity
    have hv0 : 0 ≤ hsv_v n 256 := by
      unfold hsv_v; split <;> [linarith; norm_num]
    have hv1 : hsv_v n 256 ≤ 1 := by
      unfold hsv_v; split <;> [linarith; norm_num]
    have hc0 : 0 ≤ hsv_c n 256 := by
      unfold hsv_c hsv_s
      exact mul_nonneg hv0 (by norm_num)
    have hcv : hsv_c n 256 ≤ hsv_v n 256 := by
      unfold hsv_c hsv_s; nlinarith
    have hh : (0 : ℚ) ≤ hsv_hue n 256 / 60 := by
      unfold hsv_hue; positivity
    obtain ⟨hf0, hf2⟩ := fmod_two _ hh
    have habs0 := abs_nonneg (fmod (hsv_hue n 256 / 60) 2 - 1)
    have habs1 : |fmod (hsv_hue n 256 / 60) 2 - 1| ≤ 1 := by
      rw [abs_le]; constructor <;> linarith
    have hx0 : 0 ≤ hsv_x n 256 := by
      unfold hsv_x; nlinarith
    have hxc : hsv_x n 256 ≤ hsv_c n 256 := by
      unfold hsv_x; nlinarith
    have hm0 : 0 ≤ hsv_m n 256 := by unfold hsv_m; linarith
    have hmc : hsv_c n 256 + hsv_m n 256 ≤ 1 := by unfold hsv_m; linarith
    obtain ⟨⟨hr0, hrc⟩, ⟨hg0, hgc⟩, ⟨hbb0, hbc⟩⟩ :=
      sector_rgb_bounds (hsv_sector n 256) (hsv_c n 256) (hsv_x n 256) hx0 hxc hc0
    simp only [color_from_iter, if_neg hn]
    exact ⟨⟨by linarith, by linarith⟩, ⟨by linarith, by linarith⟩,
      ⟨by linarith, by linarith⟩, trivial⟩

/-- C5 witness: the theorem instantiated at `n = 7`. -/
theorem color_channels_in_range_witness :
    (7 : ℕ) ≤ 256 ∧
    ((0 ≤ (color_from_iter 7 256).r ∧ (color_from_iter 7 256).r ≤ 1) ∧
     (0 ≤ (color_from_iter 7 256).g ∧ (color_from_iter 7 256).g ≤ 1) ∧
     (0 ≤ (color_from_iter 7 256).b ∧ (color_from_iter 7 256).b ≤ 1) ∧
     (color_from_iter 7 256).a = 1) :=
  ⟨by norm_num, color_channels_in_range 7 (by norm_num)⟩

/-- C6: for every `n` with `0 ≤ n < 256` the hue `t * 360` lies in
`[0, 360)`, the sector index (truncation of `hue / 60`) lies in
`{0, 1, 2, 3, 4, 5}`, and the catch-all match arm — taken exactly when the
index is none of `0..4` — is taken only at index `5`. -/
theorem hue_sector_in_range (n : ℕ) (h : n < 256) :
    0 ≤ hsv_hue n 256 ∧ hsv_hue n 256 < 360 ∧
    0 ≤ hsv_sector n 256 ∧ hsv_sector n 256 ≤ 5 ∧
    (hsv_sector n 256 ≠ 0 → hsv_sector n 256 ≠ 1 → hsv_sector n 256 ≠ 2 →
      hsv_sector n 256 ≠ 3 → hsv_sector n 256 ≠ 4 → hsv_sector n 256 = 5) := by
  have ht0 : (0 : ℚ) ≤ hsv_t n 256 := by unfold hsv_t; positivity
  have ht1 : hsv_t n 256 < 1 := by
    unfold hsv_t
    rw [div_lt_one (by norm_num)]
    exact_mod_cast h
  have hhue0 : 0 ≤ hsv_hue n 256 := by unfold hsv_hue; nlinarith
  have hhue1 : hsv_hue n 256 < 360 := by unfold hsv_hue; nlinarith
  have hsec : hsv_sector n 256 = ⌊hsv_hue n 256 / 60⌋ := by
    unfold hsv_sector rtrunc
    rw [if_pos (by positivity)]
  have hb0 : 0 ≤ hsv_sector n 256 := by
    rw [hsec]; exact Int.floor_nonneg.mpr (by positivity)
  have hb5 : hsv_sector n 256 ≤ 5 := by
    rw [hsec]
    have h6 : hsv_hue n 256 / 60 < ((6 : ℤ) : ℚ) := by push_cast; linarith
    have := Int.floor_lt.mpr h6
    omega
  exact ⟨hhue0, hhue1, hb0, hb5, fun _ _ _ _ _ => by omega⟩

/-- C6 witness: the theorem instantiated at `n = 77`. -/
theorem hue_sector_in_range_witness :
    (77 : ℕ) < 256 ∧
    (0 ≤ hsv_hue 77 256 ∧ hsv_hue 77 256 < 360 ∧
     0 ≤ hsv_sector 77 256 ∧ hsv_sector 77 256 ≤ 5 ∧
     (hsv_sector 77 256 ≠ 0 → hsv_sector 77 256 ≠ 1 → hsv_sector 77 256 ≠ 2 →
       hsv_sector 77 256 ≠ 3 → hsv_sector 77 256 ≠ 4 → hsv_sector 77 256 = 5)) :=
  ⟨by norm_num, hue_sector_in_range 77 (by norm_num)⟩

/-- C7: for every `max_iter ≥ 1`, `mandelbrot 0 0 max_iter = max_iter`:
the origin never escapes, so the loop always runs to the cap. -/
theorem mandelbrot_origin_max_iter (max_iter : ℕ) (h : 1 ≤ max_iter) :
    mandelbrot 0 0 max_iter = max_iter := by
  have := mandelbrotGo_zero_c max_iter 0
  simpa [mandelbrot] using this

/-- C7 witness: the theorem instantiated at `max_iter = 256`. -/
theorem mandelbrot_origin_max_iter_witness :
    1 ≤ 256 ∧ mandelbrot 0 0 256 = 256 :=
  ⟨by norm_num, mandelbrot_origin_max_iter 256 (by norm_num)⟩

/-- C8: for every view state and any click positions, zoom-in followed by
zoom-out returns `zoom` exactly to its original value (exact equality in
the rational model, hence within any floating-point tolerance), while each
click overwrites the center with the clicked point rather than reversing
it: concretely, clicking the pixel `(0, 0)` twice from the default view
moves `center_x` from `-0.5` to `-4`. -/
theorem zoom_roundtrip :
    (∀ (v : View) (m1x m1y m2x m2y : ℚ),
        (step (step v (Action.zoomIn m1x m1y)) (Action.zoomOut m2x m2y)).zoom = v.zoom
        ∧ (step v (Action.zoomIn m1x m1y)).center_x = (v.screen_to_complex m1x m1y).1
        ∧ (step v (Action.zoomIn m1x m1y)).center_y = (v.screen_to_complex m1x m1y).2)
    ∧ (step (step View.new (Action.zoomIn 0 0)) (Action.zoomOut 0 0)).center_x = -4
    ∧ View.new.center_x = -0.5 := by
  refine ⟨fun v m1x m1y m2x m2y => ⟨?_, rfl, rfl⟩, ?_, rfl⟩
  · simp only [step]
    ring
  · norm_num [step, View.new, View.screen_to_complex, WIDTH, HEIGHT]

/-- C9: with the default view state `(-0.5, 0.0, zoom 1.0)`, the
image-center pixel `(400, 300)` maps exactly to the center point; the
float computation `(400/800 - 0.5) * range * aspect = 0.0` is exact, so
exact equality in the rational model matches bitwise equality in the
source. -/
theorem center_pixel_maps_to_center :
    View.new.screen_to_complex 400 300 = (View.new.center_x, View.new.center_y) := by
  norm_num [View.screen_to_complex, View.new, WIDTH, HEIGHT]

/-- C10: for every `max_iter ≥ 1`, `color_from_iter 0 max_iter` is opaque
black `(0, 0, 0, 1)` — `t = 0` forces chroma, `x`, and `m` all to `0` —
which is the identical color returned for `n = max_iter`, so an
escape-count of `0` and "presumed inside the set" are visually
indistinguishable. -/
theorem color_iter_zero_black (max_iter : ℕ) (h : 1 ≤ max_iter) :
    color_from_iter 0 max_iter = BLACK ∧ color_from_iter max_iter max_iter = BLACK := by
  constructor
  · have hn : (0 : ℕ) ≠ max_iter := by omega
    have ht : hsv_t 0 max_iter = 0 := by unfold hsv_t; norm_num
    have hv : hsv_v 0 max_iter = 0 := by unfold hsv_v; rw [ht]; norm_num
    have hc : hsv_c 0 max_iter = 0 := by unfold hsv_c; rw [hv]; ring
    have hx : hsv_x 0 max_iter = 0 := by unfold hsv_x; rw [hc]; ring
    have hm' : hsv_m 0 max_iter = 0 := by unfold hsv_m; rw [hv, hc]; ring
    have hhue : hsv_hue 0 max_iter = 0 := by unfold hsv_hue; rw [ht]; ring
    have hsec : hsv_sector 0 max_iter = 0 := by
      unfold hsv_sector rtrunc; rw [hhue]; norm_num
    simp [color_from_iter, if_neg hn, hsec, hc, hx, hm', sector_rgb, BLACK]
  · simp [color_from_iter]

/-- C10 witness: the theorem instantiated at `max_iter = 256`. -/
theorem color_iter_zero_black_witness :
    1 ≤ 256 ∧ (color_from_iter 0 256 = BLACK ∧ color_from_iter 256 256 = BLACK) :=
  ⟨by norm_num, color_iter_zero_black 256 (by norm_num)⟩

end MandelbrotViz
